import Mathlib

/-!
Shallow embedding of the markdown-like renderer in `srv/server.go`
(`excerpt`, `renderContent`, `processInlineFormatting`) over `List Char`
(one Go string = one list of characters; all relevant operations are
character-wise).  Theorems settle the frozen claims about this code.
-/

/-- A string literal as a list of characters. -/
def lit (s : String) : List Char := s.toList

/-- The `*` character (bold delimiter). -/
def starCh : Char := '*'

/-- The backtick character (inline-code delimiter), written by code point. -/
def tick : Char := Char.ofNat 96

/-- The double-quote character, written by code point. -/
def quoteCh : Char := Char.ofNat 34

/-- The apostrophe character, written by code point. -/
def aposCh : Char := Char.ofNat 39

/-- The newline character. -/
def nlCh : Char := '\n'

/-- Whitespace as recognised by Go `unicode.IsSpace` (Latin-1 range:
`\t \n \v \f \r ' '` plus NEL and NBSP). -/
def isGoSpace (c : Char) : Bool :=
  c = ' ' || c = '\t' || c = '\n' || c = Char.ofNat 11 || c = Char.ofNat 12 ||
  c = '\r' || c = Char.ofNat 133 || c = Char.ofNat 160

/-- Go `strings.TrimSpace`: drop leading and trailing whitespace. -/
def goTrimSpace (s : List Char) : List Char :=
  ((s.dropWhile isGoSpace).reverse.dropWhile isGoSpace).reverse

/-- Go `strings.TrimPrefix p s`: remove `p` from the front of `s` when present. -/
def goTrimPref (p s : List Char) : List Char :=
  if p.isPrefixOf s then s.drop p.length else s

/-- Index (position) of the last space character of `s`, if any
(Go `strings.LastIndex(s, " ")`, with `none` standing for `-1`). -/
def lastSpacePos : List Char → Option Nat
  | [] => none
  | c :: rest =>
    match lastSpacePos rest with
    | some i => some (i + 1)
    | none => if c = ' ' then some 0 else none

/-- Embedding of `excerpt` (server.go:172-184).  `maxLen` is a Go `int`.
Go slicing `content[:maxLen]` panics when `maxLen < 0` (slice bounds out of
range); the panic is modelled as `none`. -/
def excerpt (content : List Char) (maxLen : Int) : Option (List Char) :=
  let c := goTrimSpace content
  if (c.length : Int) ≤ maxLen then some c
  else if maxLen < 0 then none
  else
    let truncated := c.take maxLen.toNat
    let truncated :=
      match lastSpacePos truncated with
      | some idx => if 0 < idx then truncated.take idx else truncated
      | none => truncated
    some (truncated ++ lit "...")

/-- Modelled from the spec (§4.3): the excerpt contract in the spec's own
words, for a non-negative `maxLen` — trim whitespace; return unchanged if it
fits; otherwise take the first `maxLen` characters, cut at the last space
found at a position `> 0` inside that slice, and append `"..."`. -/
def excerptSpec (content : List Char) (maxLen : Nat) : List Char :=
  let trimmed := goTrimSpace content
  if trimmed.length ≤ maxLen then trimmed
  else
    let slice := trimmed.take maxLen
    let kept :=
      match lastSpacePos slice with
      | some idx => if 0 < idx then slice.take idx else slice
      | none => slice
    kept ++ lit "..."

/-- For a non-negative length the code agrees with the spec's description
(shared helper). -/
lemma excerpt_natCast (content : List Char) (maxLen : Nat) :
    excerpt content (maxLen : Int) = some (excerptSpec content maxLen) := by
  unfold excerpt excerptSpec
  have hnn : ¬ ((maxLen : Int) < 0) := by omega
  by_cases h : (goTrimSpace content).length ≤ maxLen
  · simp [h]
  · simp [Nat.cast_le, h, hnn]

/-- C8: for every content string and non-negative `maxLen`, `excerpt` returns
the trimmed content unchanged when it fits, and otherwise the first `maxLen`
characters cut back to the last space at a position `> 0` with `"..."`
appended (captured by `excerptSpec`, written from the spec's words); in
particular `excerpt "The quick brown fox jumps" 10 = "The quick..."` and
`excerpt "short" 10 = "short"`. -/
theorem c8_excerpt_matches_spec :
    (∀ (content : List Char) (maxLen : Nat),
      excerpt content (maxLen : Int) = some (excerptSpec content maxLen)) ∧
    excerpt (lit "The quick brown fox jumps") 10 = some (lit "The quick...") ∧
    excerpt (lit "short") 10 = some (lit "short") := by
  refine ⟨excerpt_natCast, by decide, by decide⟩

/-- C4 counterexample: the claim quantifies over negative `maxLen` as well,
but `excerpt "a" (-1)` panics in Go (`content[:maxLen]` with a negative
bound), modelled here as `none`. -/
theorem c4_negative_maxlen_panics : excerpt (lit "a") (-1) = none := by decide

/-- C4 (amended): for every content string and every non-negative `maxLen`,
`excerpt` returns a well-defined string without crashing. -/
theorem c4_excerpt_total_nonneg (content : List Char) (maxLen : Int)
    (h : 0 ≤ maxLen) : (excerpt content maxLen).isSome := by
  unfold excerpt
  by_cases hle : ((goTrimSpace content).length : Int) ≤ maxLen
  · simp [hle]
  · have : ¬ maxLen < 0 := Int.not_lt.mpr h
    simp [hle, this]

/-- C4 witness: the amended theorem at a concrete input. -/
theorem c4_excerpt_total_nonneg_witness :
    (excerpt (lit "hello world example") 5).isSome :=
  c4_excerpt_total_nonneg (lit "hello world example") 5 (by decide)

/-- C10: the result of `excerpt` is never longer than `maxLen + 3` — the
pre-ellipsis part never exceeds `maxLen` and `"..."` adds three characters. -/
theorem c10_excerpt_length_bound (content : List Char) (maxLen : Nat)
    (r : List Char) (h : excerpt content (maxLen : Int) = some r) :
    r.length ≤ maxLen + 3 := by
  rw [excerpt_natCast] at h
  obtain rfl : excerptSpec content maxLen = r := Option.some.inj h
  unfold excerptSpec
  have hdots : (lit "...").length = 3 := by decide
  by_cases hfit : (goTrimSpace content).length ≤ maxLen
  · simp only [hfit, if_true]; omega
  · simp only [hfit, if_false]
    have hslice : ((goTrimSpace content).take maxLen).length ≤ maxLen := by
      simp [List.length_take]
    rcases hpos : lastSpacePos ((goTrimSpace content).take maxLen) with _ | idx
    · simp only [hpos, List.length_append, hdots]; omega
    · simp only [hpos]
      by_cases hi : 0 < idx
      · have : (((goTrimSpace content).take maxLen).take idx).length ≤ maxLen := by
          simp only [List.length_take]; omega
        simp only [hi, if_true, List.length_append, hdots]; omega
      · simp only [hi, if_false, List.length_append, hdots]; omega

/-- C10 witness: the length bound at a concrete input. -/
theorem c10_excerpt_length_bound_witness : (lit "The quick...").length ≤ 10 + 3 :=
  c10_excerpt_length_bound (lit "The quick brown fox jumps") 10
    (lit "The quick...") (by decide)

/-- Go `html/template.HTMLEscapeString` on one character: the five escaped
characters become entities, everything else passes through. -/
def escChar (c : Char) : List Char :=
  if c = aposCh then lit "&#39;"
  else if c = quoteCh then lit "&#34;"
  else if c = '&' then lit "&amp;"
  else if c = '<' then lit "&lt;"
  else if c = '>' then lit "&gt;"
  else [c]

/-- Go `template.HTMLEscapeString` over a whole string. -/
def escapeHTML (s : List Char) : List Char := (s.map escChar).flatten

/-- Go `strings.Split(content, "\n")`: `""` yields `[""]`, a trailing
newline yields a trailing `""` element. -/
def splitNL : List Char → List (List Char)
  | [] => [[]]
  | c :: rest =>
    if c = nlCh then [] :: splitNL rest
    else
      match splitNL rest with
      | l :: ls => (c :: l) :: ls
      | [] => [[c]]

/-- The mutable state of `renderContent`'s line loop (server.go:189-192):
the accumulated output of the `strings.Builder`, the two booleans, and the
pending paragraph lines. -/
structure RState where
  out : List Char
  inCodeBlock : Bool
  inList : Bool
  paragraph : List (List Char)
deriving DecidableEq, Repr

/-- `flushParagraph` (server.go:194-202): join pending lines with spaces,
escape, wrap in `<p>…</p>`. -/
def flushPara (st : RState) : RState :=
  if st.paragraph = [] then st
  else
    { st with
      out := st.out ++ lit "<p>" ++ escapeHTML (List.intercalate [' '] st.paragraph) ++ lit "</p>\n"
      paragraph := [] }

/-- The inlined list-closing snippet (`if inList { sb.WriteString("</ul>\n"); inList = false }`). -/
def closeList (st : RState) : RState :=
  if st.inList then { st with out := st.out ++ lit "</ul>\n", inList := false } else st

/-- The four spaces opening a code block. -/
def fourSp : List Char := lit "    "

/-- The blank-line / header / list-item / paragraph rules of the line loop
(server.go:228-276), reached when the line was not consumed as code-block
content. -/
def afterCodeBlock (st : RState) (trimmed : List Char) : RState :=
  if trimmed = [] then closeList (flushPara st)
  else if (lit "## ").isPrefixOf trimmed then
    let a := closeList (flushPara st)
    { a with out := a.out ++ lit "<h2>" ++ escapeHTML (goTrimPref (lit "## ") trimmed) ++ lit "</h2>\n" }
  else if (lit "# ").isPrefixOf trimmed then
    let a := closeList (flushPara st)
    { a with out := a.out ++ lit "<h2>" ++ escapeHTML (goTrimPref (lit "# ") trimmed) ++ lit "</h2>\n" }
  else if (lit "- ").isPrefixOf trimmed then
    let a := flushPara st
    let b := if !a.inList then { a with out := a.out ++ lit "<ul>\n", inList := true } else a
    { b with out := b.out ++ lit "<li>" ++ escapeHTML (goTrimPref (lit "- ") trimmed) ++ lit "</li>\n" }
  else { st with paragraph := st.paragraph ++ [trimmed] }

/-- One iteration of the line loop (server.go:204-277). -/
def processLine (st : RState) (line : List Char) : RState :=
  let stOpen :=
    if fourSp.isPrefixOf line && !st.inCodeBlock then
      let a := closeList (flushPara st)
      { a with out := a.out ++ lit "<pre><code>", inCodeBlock := true }
    else st
  if stOpen.inCodeBlock then
    if fourSp.isPrefixOf line then
      { stOpen with out := stOpen.out ++ escapeHTML (goTrimPref fourSp line) ++ [nlCh] }
    else
      afterCodeBlock
        { stOpen with out := stOpen.out ++ lit "</code></pre>\n", inCodeBlock := false }
        (goTrimSpace line)
  else afterCodeBlock stOpen (goTrimSpace line)

/-- The block-level part of `renderContent` (server.go:186-288): run the line
loop over all lines, then close a dangling code block and list and flush the
last paragraph.  Returns `sb.String()` before inline formatting. -/
def blockPass (content : List Char) : List Char :=
  let st := (splitNL content).foldl processLine ⟨[], false, false, []⟩
  let st1 := if st.inCodeBlock then { st with out := st.out ++ lit "</code></pre>\n" } else st
  let st2 := if st1.inList then { st1 with out := st1.out ++ lit "</ul>\n" } else st1
  (flushPara st2).out

/-- Go `strings.Index(s, "**")`: position of the first adjacent pair of
stars, if any. -/
def index2 : List Char → Option Nat
  | [] => none
  | c :: rest =>
    if c = starCh ∧ rest.head? = some starCh then some 0
    else (index2 rest).map (· + 1)

/-- Go `strings.Index(s, "`")` (single-character needle). -/
def index1 : List Char → Option Nat
  | [] => none
  | c :: rest => if c = tick then some 0 else (index1 rest).map (· + 1)

/-- One iteration of the bold loop (server.go:295-306): find the first two
`**` delimiters and replace them by `<strong>`/`</strong>`; `none` when the
loop would `break`. -/
def boldStep (s : List Char) : Option (List Char) :=
  (index2 s).bind fun i =>
    (index2 (s.drop (i + 2))).map fun j =>
      s.take i ++ lit "<strong>" ++ (s.drop (i + 2)).take j ++ lit "</strong>"
        ++ (s.drop (i + 2)).drop (j + 2)

/-- One iteration of the inline-code loop (server.go:308-319). -/
def tickStep (s : List Char) : Option (List Char) :=
  (index1 s).bind fun i =>
    (index1 (s.drop (i + 1))).map fun j =>
      s.take i ++ lit "<code>" ++ (s.drop (i + 1)).take j ++ lit "</code>"
        ++ (s.drop (i + 1)).drop (j + 1)

/-- Number of occurrences of a character (loop-termination measure). -/
def countCh (c : Char) : List Char → Nat
  | [] => 0
  | x :: rest => (if x = c then 1 else 0) + countCh c rest

/-- The bold loop, driven by fuel.  Each successful `boldStep` removes four
`*` characters, so `countCh starCh s` units of fuel always suffice (proved in
`boldRunO_some`); with that fuel this is exactly the Go `for` loop. -/
def boldRun : Nat → List Char → List Char
  | 0, s => s
  | fuel + 1, s =>
    match boldStep s with
    | none => s
    | some t => boldRun fuel t

/-- The inline-code loop, driven by fuel (each step removes two backticks). -/
def tickRun : Nat → List Char → List Char
  | 0, s => s
  | fuel + 1, s =>
    match tickStep s with
    | none => s
    | some t => tickRun fuel t

/-- The completed bold pass. -/
def boldPass (s : List Char) : List Char := boldRun (countCh starCh s) s

/-- The completed inline-code pass. -/
def tickPass (s : List Char) : List Char := tickRun (countCh tick s) s

/-- `processInlineFormatting` (server.go:293-321): bold pass, then code pass. -/
def processInlineFormatting (s : List Char) : List Char := tickPass (boldPass s)

/-- `renderContent` (server.go:186-291): block rendering, then one inline
pass over the whole document string. -/
def renderContent (content : List Char) : List Char :=
  processInlineFormatting (blockPass content)

/-- The bold loop with an explicit out-of-fuel marker: `none` means the fuel
ran out while another replacement was still possible. -/
def boldRunO : Nat → List Char → Option (List Char)
  | 0, s => match boldStep s with | none => some s | some _ => none
  | fuel + 1, s =>
    match boldStep s with
    | none => some s
    | some t => boldRunO fuel t

/-- The inline-code loop with an explicit out-of-fuel marker. -/
def tickRunO : Nat → List Char → Option (List Char)
  | 0, s => match tickStep s with | none => some s | some _ => none
  | fuel + 1, s =>
    match tickStep s with
    | none => some s
    | some t => tickRunO fuel t

/-- `renderContent` where both scan-and-replace loops must finish within
their computed fuel, `none` otherwise. -/
def renderContentO (content : List Char) : Option (List Char) :=
  (boldRunO (countCh starCh (blockPass content)) (blockPass content)).bind
    fun t => tickRunO (countCh tick t) t

lemma countCh_append (c : Char) (a b : List Char) :
    countCh c (a ++ b) = countCh c a + countCh c b := by
  induction a with
  | nil => simp [countCh]
  | cons x rest ih => simp [countCh, ih]; omega

lemma index2_zero_head (s : List Char) (h : index2 s = some 0) :
    s.head? = some starCh := by
  cases s with
  | nil => simp [index2] at h
  | cons c rest =>
    unfold index2 at h
    by_cases hc : c = starCh ∧ rest.head? = some starCh
    · simp [hc.1]
    · rw [if_neg hc] at h
      cases hrest : index2 rest with
      | none => rw [hrest] at h; exact absurd h (by simp)
      | some j => rw [hrest] at h; simp at h

/-- `strings.Index(s, "**") = i` decomposes `s` as `take i ++ "**" ++ drop (i+2)`,
with no pair of adjacent stars before position `i` (not even one ending at `i`). -/
lemma index2_decomp : ∀ (s : List Char) (i : Nat), index2 s = some i →
    s.take i ++ starCh :: starCh :: s.drop (i + 2) = s ∧
    index2 (s.take i ++ [starCh]) = none := by
  intro s
  induction s with
  | nil => intro i h; simp [index2] at h
  | cons c rest IH =>
    intro i h
    unfold index2 at h
    by_cases hc : c = starCh ∧ rest.head? = some starCh
    · rw [if_pos hc] at h
      obtain rfl : (0 : Nat) = i := by injection h
      obtain ⟨hcs, hh⟩ := hc
      cases rest with
      | nil => simp at hh
      | cons r rest' =>
        simp only [List.head?] at hh
        obtain rfl : r = starCh := by injection hh
        subst hcs
        refine ⟨by simp, ?_⟩
        simp [index2]
    · rw [if_neg hc] at h
      cases hrest : index2 rest with
      | none => rw [hrest] at h; exact absurd h (by simp)
      | some j =>
        rw [hrest] at h
        simp only [Option.map_some'] at h
        obtain rfl : j + 1 = i := by injection h
        obtain ⟨hdec, hnone⟩ := IH j hrest
        constructor
        · simpa using hdec
        · have hrne : rest ≠ [] := by
            intro hr; rw [hr] at hrest; simp [index2] at hrest
          have hhead : (rest.take j ++ [starCh]).head? = some starCh →
              rest.head? = some starCh := by
            cases j with
            | zero => intro _; exact index2_zero_head rest hrest
            | succ k =>
              intro hx
              cases rest with
              | nil => exact absurd rfl hrne
              | cons r rest' => simpa using hx
          show index2 (c :: (rest.take j ++ [starCh])) = none
          unfold index2
          rw [if_neg (by intro hcx; exact hc ⟨hcx.1, hhead hcx.2⟩), hnone]
          rfl

lemma index1_decomp : ∀ (s : List Char) (i : Nat), index1 s = some i →
    s.take i ++ tick :: s.drop (i + 1) = s := by
  intro s
  induction s with
  | nil => intro i h; simp [index1] at h
  | cons c rest IH =>
    intro i h
    unfold index1 at h
    by_cases hc : c = tick
    · rw [if_pos hc] at h
      obtain rfl : (0 : Nat) = i := by injection h
      subst hc; simp
    · rw [if_neg hc] at h
      cases hrest : index1 rest with
      | none => rw [hrest] at h; exact absurd h (by simp)
      | some j =>
        rw [hrest] at h
        simp only [Option.map_some'] at h
        obtain rfl : j + 1 = i := by injection h
        simpa using IH j hrest

/-- Each successful bold replacement removes exactly four `*` characters. -/
lemma boldStep_count (s t : List Char) (h : boldStep s = some t) :
    countCh starCh s = countCh starCh t + 4 := by
  unfold boldStep at h
  rw [Option.bind_eq_some] at h
  obtain ⟨i, hi, hmap⟩ := h
  rw [Option.map_eq_some'] at hmap
  obtain ⟨j, hj, rfl⟩ := hmap
  have h1 := (index2_decomp s i hi).1
  have h2 := (index2_decomp (s.drop (i + 2)) j hj).1
  have hs : countCh starCh s
      = countCh starCh (s.take i) + (2 + countCh starCh (s.drop (i + 2))) := by
    conv_lhs => rw [← h1]
    simp [countCh_append, countCh]
    omega
  have hd : countCh starCh (s.drop (i + 2))
      = countCh starCh ((s.drop (i + 2)).take j)
        + (2 + countCh starCh ((s.drop (i + 2)).drop (j + 2))) := by
    conv_lhs => rw [← h2]
    simp [countCh_append, countCh]
    omega
  have htag1 : countCh starCh (lit "<strong>") = 0 := by decide
  have htag2 : countCh starCh (lit "</strong>") = 0 := by decide
  simp only [countCh_append, htag1, htag2]
  omega

/-- Each successful inline-code replacement removes exactly two backticks. -/
lemma tickStep_count (s t : List Char) (h : tickStep s = some t) :
    countCh tick s = countCh tick t + 2 := by
  unfold tickStep at h
  rw [Option.bind_eq_some] at h
  obtain ⟨i, hi, hmap⟩ := h
  rw [Option.map_eq_some'] at hmap
  obtain ⟨j, hj, rfl⟩ := hmap
  have h1 := index1_decomp s i hi
  have h2 := index1_decomp (s.drop (i + 1)) j hj
  have hs : countCh tick s
      = countCh tick (s.take i) + (1 + countCh tick (s.drop (i + 1))) := by
    conv_lhs => rw [← h1]
    simp [countCh_append, countCh]
  have hd : countCh tick (s.drop (i + 1))
      = countCh tick ((s.drop (i + 1)).take j)
        + (1 + countCh tick ((s.drop (i + 1)).drop (j + 1))) := by
    conv_lhs => rw [← h2]
    simp [countCh_append, countCh]
  have htag1 : countCh tick (lit "<code>") = 0 := by decide
  have htag2 : countCh tick (lit "</code>") = 0 := by decide
  simp only [countCh_append, htag1, htag2]
  omega

/-- With `countCh starCh s` units of fuel the bold loop never runs out:
the fuelled loop with failure marker agrees with the total one. -/
lemma boldRunO_some : ∀ (n : Nat) (s : List Char), countCh starCh s ≤ n →
    boldRunO n s = some (boldRun n s) := by
  intro n
  induction n with
  | zero =>
    intro s hs
    cases h : boldStep s with
    | none => simp [boldRunO, boldRun, h]
    | some t => have := boldStep_count s t h; omega
  | succ k IH =>
    intro s hs
    cases h : boldStep s with
    | none => simp [boldRunO, boldRun, h]
    | some t =>
      have hc := boldStep_count s t h
      simp only [boldRunO, boldRun, h]
      exact IH t (by omega)

lemma tickRunO_some : ∀ (n : Nat) (s : List Char), countCh tick s ≤ n →
    tickRunO n s = some (tickRun n s) := by
  intro n
  induction n with
  | zero =>
    intro s hs
    cases h : tickStep s with
    | none => simp [tickRunO, tickRun, h]
    | some t => have := tickStep_count s t h; omega
  | succ k IH =>
    intro s hs
    cases h : tickStep s with
    | none => simp [tickRunO, tickRun, h]
    | some t =>
      have hc := tickStep_count s t h
      simp only [tickRunO, tickRun, h]
      exact IH t (by omega)

/-- C5: the whole render — block parsing followed by the two scan-and-replace
delimiter-pairing loops — terminates and returns a result on every input:
each bold replacement removes four `*`s and each code replacement removes two
backticks (`boldStep_count`, `tickStep_count`), so both loops finish within
the fuel computed from the remaining delimiter characters and the explicitly
fuelled run never hits its out-of-fuel marker. -/
theorem c5_render_terminates (content : List Char) :
    renderContentO content = some (renderContent content) := by
  unfold renderContentO renderContent processInlineFormatting boldPass tickPass
  rw [boldRunO_some _ _ le_rfl]
  simpa using tickRunO_some _ _ le_rfl

/-- C1 (failing evaluation): inline formatting is NOT applied per block —
`processInlineFormatting` runs once over the whole block-rendered document
(server.go:288-289), so the `**` inside the first paragraph pairs with the
`**` inside the second paragraph and the emitted `<strong>` spans the two
`<p>` blocks. -/
theorem c1_cross_block_pairing :
    renderContent (lit "a **b\n\nc** d")
      = lit "<p>a <strong>b</p>\n<p>c</strong> d</p>\n" := by decide

/-- C2 (failing evaluation): code-block content is NOT left verbatim — the
whole-document inline pass rewrites the `**` pair inside the
`<pre><code>` block into `<strong>` tags. -/
theorem c2_codeblock_inline_formatted :
    renderContent (lit "    **x**\n")
      = lit "<pre><code><strong>x</strong>\n</code></pre>\n" := by decide

/-- C6: the claim's quoted example does hold (first conjunct: the blank line
closes the list, `</ul>` precedes `<p>After.</p>`), but the general clause
fails (second conjunct, the failing evaluation): a plain non-blank non-list
line while a list is open does NOT close the list — the interrupting
paragraph is flushed inside the still-open `<ul>` and `</ul>` is emitted
only afterwards. -/
theorem c6_list_interrupt_eval :
    renderContent (lit "- one\n- two\n\nAfter.\n")
      = lit "<ul>\n<li>one</li>\n<li>two</li>\n</ul>\n<p>After.</p>\n" ∧
    renderContent (lit "- one\nplain\n")
      = lit "<ul>\n<li>one</li>\n<p>plain</p>\n</ul>\n" := by
  exact ⟨by decide, by decide⟩

lemma closeList_inList (st : RState) : (closeList st).inList = false := by
  unfold closeList
  by_cases h : st.inList
  · simp [h]
  · simp only [h, if_false]
    simpa using h

lemma closeList_paragraph (st : RState) : (closeList st).paragraph = st.paragraph := by
  unfold closeList; by_cases h : st.inList <;> simp [h]

lemma flushPara_paragraph (st : RState) : (flushPara st).paragraph = [] := by
  unfold flushPara
  by_cases h : st.paragraph = []
  · simp only [h, if_true]
  · simp [h]

/-- C7: a line starting with four spaces, met outside a code block, flushes
the open paragraph, closes the open list, opens `<pre><code>` and emits the
line with the 4-space prefix stripped as the first code line (first
conjunct, on one loop iteration); end to end, `"hello\n    world\n"` gives a
`hello` paragraph followed by a code block containing `world`. -/
theorem c7_codeblock_start :
    (∀ (st : RState) (line : List Char), st.inCodeBlock = false →
      fourSp.isPrefixOf line = true →
      processLine st line =
        ⟨(closeList (flushPara st)).out ++ lit "<pre><code>"
            ++ escapeHTML (line.drop 4) ++ [nlCh], true, false, []⟩) ∧
    renderContent (lit "hello\n    world\n")
      = lit "<p>hello</p>\n<pre><code>world\n</code></pre>\n" := by
  constructor
  · intro st line h1 h2
    have hlen : fourSp.length = 4 := by decide
    have hps : goTrimPref fourSp line = line.drop 4 := by
      simp [goTrimPref, h2, hlen]
    simp only [processLine, h1, h2, Bool.not_false, Bool.and_true, if_true, hps]
    simp [closeList_inList, closeList_paragraph, flushPara_paragraph,
      List.append_assoc]
  · decide

/-- C7 witness: the step property at a concrete state and line. -/
theorem c7_codeblock_start_witness :
    processLine ⟨[], false, false, [lit "hello"]⟩ (lit "    world")
      = ⟨(closeList (flushPara ⟨[], false, false, [lit "hello"]⟩)).out
          ++ lit "<pre><code>" ++ escapeHTML ((lit "    world").drop 4) ++ [nlCh],
          true, false, []⟩ :=
  c7_codeblock_start.1 ⟨[], false, false, [lit "hello"]⟩ (lit "    world") rfl (by decide)

/-- The number of `**` delimiters of `s` as the left-to-right, non-overlapping
scan of the Go loop counts them (`strings.Index`, then resume after the match). -/
def greedyCount : List Char → Nat
  | c1 :: c2 :: rest =>
    if c1 = starCh ∧ c2 = starCh then greedyCount rest + 1
    else greedyCount (c2 :: rest)
  | _ => 0

lemma drop_append_len (X z : List Char) (m : Nat) :
    (X ++ z).drop (X.length + m) = z.drop m := by
  induction X with
  | nil => simp
  | cons x X' ih => simp [Nat.succ_add, ih]

/-- The delimiter count through the eyes of the scanner: zero when there is
no occurrence, else one plus the count after the first occurrence. -/
lemma greedy_eq : ∀ s : List Char, greedyCount s =
    match index2 s with
    | none => 0
    | some i => greedyCount (s.drop (i + 2)) + 1 := by
  intro s
  induction s using greedyCount.induct with
  | case1 c1 c2 rest hpair ih =>
    obtain ⟨rfl, rfl⟩ := hpair
    simp [greedyCount, index2]
  | case2 c1 c2 rest hpair ih =>
    have hcond : ¬ (c1 = starCh ∧ (c2 :: rest).head? = some starCh) := by
      simpa using hpair
    rw [show greedyCount (c1 :: c2 :: rest) = greedyCount (c2 :: rest) by
      simp [greedyCount, hpair]]
    rw [ih]
    show _ = (match index2 (c1 :: c2 :: rest) with
      | none => 0
      | some i => greedyCount ((c1 :: c2 :: rest).drop (i + 2)) + 1)
    rw [show index2 (c1 :: c2 :: rest) = (index2 (c2 :: rest)).map (· + 1) by
      rw [index2]; rw [if_neg hcond]]
    cases hx : index2 (c2 :: rest) with
    | none => simp
    | some j => simp
  | case3 s hs =>
    cases s with
    | nil => simp [greedyCount, index2]
    | cons c rest =>
      cases rest with
      | nil => simp [greedyCount, index2]
      | cons c2 rest' => exact absurd rfl (fun hx => hs c c2 rest' hx)

lemma greedy_eq_none (s : List Char) (h : index2 s = none) : greedyCount s = 0 := by
  rw [greedy_eq s, h]

lemma greedy_eq_some (s : List Char) (i : Nat) (h : index2 s = some i) :
    greedyCount s = greedyCount (s.drop (i + 2)) + 1 := by
  rw [greedy_eq s, h]

lemma head?_append_take1 (A C : List Char) :
    (A ++ C.take 1).head? = (A ++ C).head? := by
  cases A with
  | nil => cases C <;> simp
  | cons a A' => simp

/-- Shifting `strings.Index(·, "**")` across a prefix that contains no pair
of adjacent stars, not even one straddling the junction. -/
lemma index2_shift : ∀ (X C : List Char), index2 (X ++ C.take 1) = none →
    index2 (X ++ C) = (index2 C).map (· + X.length) := by
  intro X
  induction X with
  | nil =>
    intro C _
    cases hx : index2 C <;> simp [hx]
  | cons x X' IH =>
    intro C h
    rw [List.cons_append] at h
    rw [index2] at h
    by_cases hcond : x = starCh ∧ (X' ++ C.take 1).head? = some starCh
    · rw [if_pos hcond] at h; exact absurd h (by simp)
    · rw [if_neg hcond] at h
      have hin : index2 (X' ++ C.take 1) = none := Option.map_eq_none'.mp h
      rw [List.cons_append, index2]
      rw [if_neg (by rw [← head?_append_take1]; exact hcond)]
      rw [IH C hin]
      cases hx : index2 C with
      | none => simp
      | some j => simp [Nat.add_assoc]

lemma index2_single (c : Char) : index2 [c] = none := by simp [index2]

/-- A pair-free block stays pair-free when its final sentinel star is
replaced by anything of length at most one. -/
lemma noadj_ext : ∀ (A : List Char), index2 (A ++ [starCh]) = none →
    ∀ C1 : List Char, C1.length ≤ 1 → index2 (A ++ C1) = none := by
  intro A
  induction A with
  | nil =>
    intro _ C1 hlen
    match C1, hlen with
    | [], _ => simp [index2]
    | [c], _ => simpa using index2_single c
  | cons a A' IH =>
    intro h C1 hlen
    rw [List.cons_append, index2] at h
    by_cases hcond : a = starCh ∧ (A' ++ [starCh]).head? = some starCh
    · rw [if_pos hcond] at h; exact absurd h (by simp)
    · rw [if_neg hcond] at h
      have hin : index2 (A' ++ [starCh]) = none := Option.map_eq_none'.mp h
      rw [List.cons_append, index2]
      have hgoalcond : ¬ (a = starCh ∧ (A' ++ C1).head? = some starCh) := by
        cases A' with
        | nil =>
          intro hx
          exact hcond ⟨hx.1, by simp⟩
        | cons b A'' =>
          intro hx
          exact hcond ⟨hx.1, by simpa using hx.2⟩
      rw [if_neg hgoalcond, IH hin C1 hlen]
      rfl

lemma index2_append_none (P Q : List Char) (hP : index2 (P ++ Q.take 1) = none)
    (hQ : index2 Q = none) : index2 (P ++ Q) = none := by
  rw [index2_shift P Q hP, hQ]; rfl

/-- Dropping a pair-free prefix does not change the scanner's delimiter count. -/
lemma greedy_append_drop (X C : List Char) (h : index2 (X ++ C.take 1) = none) :
    greedyCount (X ++ C) = greedyCount C := by
  have hsh := index2_shift X C h
  cases hc : index2 C with
  | none =>
    rw [hc] at hsh
    rw [greedy_eq_none _ (by simpa using hsh), greedy_eq_none _ hc]
  | some k =>
    rw [hc] at hsh
    simp only [Option.map_some'] at hsh
    rw [greedy_eq_some _ _ hsh, greedy_eq_some _ _ hc]
    have : k + X.length + 2 = X.length + (k + 2) := by omega
    rw [this, drop_append_len]

/-- Each successful bold replacement consumes exactly the first two scanned
`**` delimiters: the scanner's count drops by two. -/
lemma boldStep_greedy (s t : List Char) (h : boldStep s = some t) :
    greedyCount s = greedyCount t + 2 := by
  unfold boldStep at h
  rw [Option.bind_eq_some] at h
  obtain ⟨i, hi, hmap⟩ := h
  rw [Option.map_eq_some'] at hmap
  obtain ⟨j, hj, rfl⟩ := hmap
  obtain ⟨hdec1, hA⟩ := index2_decomp s i hi
  obtain ⟨hdec2, hB⟩ := index2_decomp (s.drop (i + 2)) j hj
  have hT1 : index2 (lit "<strong>" ++ [starCh]) = none := by decide
  have hT2 : index2 (lit "</strong>" ++ [starCh]) = none := by decide
  have htake1 : ∀ z : List Char, (List.take 1 z).length ≤ 1 := by
    intro z; rw [List.length_take]; omega
  have hgs : greedyCount s
      = greedyCount ((s.drop (i + 2)).drop (j + 2)) + 2 := by
    rw [greedy_eq_some s i hi, greedy_eq_some (s.drop (i + 2)) j hj]
  have h4 : index2 (lit "</strong>"
      ++ List.take 1 ((s.drop (i + 2)).drop (j + 2))) = none :=
    noadj_ext _ hT2 _ (htake1 _)
  have h3 : index2 ((s.drop (i + 2)).take j
      ++ (lit "</strong>" ++ List.take 1 ((s.drop (i + 2)).drop (j + 2)))) = none :=
    index2_append_none _ _ (noadj_ext _ hB _ (htake1 _)) h4
  have h2 : index2 (lit "<strong>" ++ ((s.drop (i + 2)).take j
      ++ (lit "</strong>" ++ List.take 1 ((s.drop (i + 2)).drop (j + 2))))) = none :=
    index2_append_none _ _ (noadj_ext _ hT1 _ (htake1 _)) h3
  have h1 : index2 (s.take i ++ (lit "<strong>" ++ ((s.drop (i + 2)).take j
      ++ (lit "</strong>" ++ List.take 1 ((s.drop (i + 2)).drop (j + 2)))))) = none :=
    index2_append_none _ _ (noadj_ext _ hA _ (htake1 _)) h2
  have hgt := greedy_append_drop
    (s.take i ++ (lit "<strong>" ++ ((s.drop (i + 2)).take j ++ lit "</strong>")))
    ((s.drop (i + 2)).drop (j + 2))
    (by simpa [List.append_assoc] using h1)
  have hgt' : greedyCount (s.take i ++ lit "<strong>" ++ (s.drop (i + 2)).take j
      ++ lit "</strong>" ++ (s.drop (i + 2)).drop (j + 2))
      = greedyCount ((s.drop (i + 2)).drop (j + 2)) := by
    simpa [List.append_assoc] using hgt
  rw [hgs, hgt']

/-- The parity of the scanner's delimiter count is invariant under the bold
loop. -/
lemma boldRun_parity : ∀ (n : Nat) (s : List Char),
    greedyCount (boldRun n s) % 2 = greedyCount s % 2 := by
  intro n
  induction n with
  | zero => intro s; rfl
  | succ k IH =>
    intro s
    cases h : boldStep s with
    | none => simp [boldRun, h]
    | some t =>
      have := boldStep_greedy s t h
      simp only [boldRun, h]
      rw [IH t]
      omega

/-- C9: a text with an odd number of `**` delimiters (as the left-to-right
scanner counts them) keeps its final unpaired delimiter as literal text —
after the bold pass a literal `**` still occurs in the string, so no
`<strong>` was emitted for it; concretely, `"a ** b"` renders as
`<p>a ** b</p>` with the `**` verbatim and no `<strong>` tag. -/
theorem c9_odd_delims_literal :
    (∀ s : List Char, Odd (greedyCount s) → (index2 (boldPass s)).isSome) ∧
    renderContent (lit "a ** b") = lit "<p>a ** b</p>\n" := by
  constructor
  · intro s hodd
    cases hx : index2 (boldPass s) with
    | some v => rfl
    | none =>
      have h0 : greedyCount (boldPass s) = 0 := greedy_eq_none _ hx
      have hpar := boldRun_parity (countCh starCh s) s
      unfold boldPass at h0
      rw [h0] at hpar
      rw [Nat.odd_iff] at hodd
      omega
  · decide

/-- C9 witness: the odd-count property at the concrete segment `"a ** b"`. -/
theorem c9_odd_delims_literal_witness :
    (index2 (boldPass (lit "a ** b"))).isSome :=
  c9_odd_delims_literal.1 (lit "a ** b") (by decide)

/-- The five escape entities `template.HTMLEscapeString` can emit. -/
def entityList : List (List Char) :=
  [lit "&lt;", lit "&gt;", lit "&amp;", lit "&#34;", lit "&#39;"]

/-- Every literal tag string the renderer itself writes into the output
(block tags from `renderContent`, inline tags from `processInlineFormatting`). -/
def tagList : List (List Char) :=
  [lit "<p>", lit "</p>\n", lit "<h2>", lit "</h2>\n", lit "<ul>\n", lit "</ul>\n",
   lit "<li>", lit "</li>\n", lit "<pre><code>", lit "</code></pre>\n",
   lit "<strong>", lit "</strong>", lit "<code>", lit "</code>"]

/-- A string is `Safe` when it is a concatenation of (a) single characters
that are none of `< >, &, "`, (b) escape entities produced by escaping
literal text, and (c) structural tags emitted by the renderer itself.  In a
`Safe` string every occurrence of `<`, `>` or `"` lies inside an emitted
structural tag, and every `&` lies inside an emitted tag or starts an escape
entity of escaped literal text. -/
inductive Safe : List Char → Prop where
  | nil : Safe []
  | chr {c : Char} {s : List Char} :
      c ≠ '<' → c ≠ '>' → c ≠ '&' → c ≠ quoteCh → Safe s → Safe (c :: s)
  | ent {e s : List Char} : e ∈ entityList → Safe s → Safe (e ++ s)
  | tag {t s : List Char} : t ∈ tagList → Safe s → Safe (t ++ s)

lemma safe_append {a b : List Char} (ha : Safe a) (hb : Safe b) : Safe (a ++ b) := by
  induction ha with
  | nil => simpa using hb
  | chr h1 h2 h3 h4 _ ih => exact Safe.chr h1 h2 h3 h4 ih
  | ent he _ ih => rw [List.append_assoc]; exact Safe.ent he ih
  | tag ht _ ih => rw [List.append_assoc]; exact Safe.tag ht ih

lemma safe_ent1 {e : List Char} (he : e ∈ entityList) : Safe e := by
  simpa using Safe.ent he Safe.nil

lemma safe_tag1 {t : List Char} (ht : t ∈ tagList) : Safe t := by
  simpa using Safe.tag ht Safe.nil

lemma safe_escChar (c : Char) : Safe (escChar c) := by
  unfold escChar
  by_cases h1 : c = aposCh
  · simp only [h1, if_true]; exact safe_ent1 (by decide)
  · rw [if_neg h1]
    by_cases h2 : c = quoteCh
    · simp only [h2, if_true]; exact safe_ent1 (by decide)
    · rw [if_neg h2]
      by_cases h3 : c = '&'
      · simp only [h3, if_true]; exact safe_ent1 (by decide)
      · rw [if_neg h3]
        by_cases h4 : c = '<'
        · simp only [h4, if_true]; exact safe_ent1 (by decide)
        · rw [if_neg h4]
          by_cases h5 : c = '>'
          · simp only [h5, if_true]; exact safe_ent1 (by decide)
          · rw [if_neg h5]
            exact Safe.chr h4 h5 h3 h2 Safe.nil

lemma safe_escape (t : List Char) : Safe (escapeHTML t) := by
  induction t with
  | nil => exact Safe.nil
  | cons c r ih =>
    have : escapeHTML (c :: r) = escChar c ++ escapeHTML r := by
      simp [escapeHTML]
    rw [this]
    exact safe_append (safe_escChar c) ih

/-- Cutting a `Safe` string at a character that occurs in no entity and no
tag yields two `Safe` halves: the cut point can only be a single-character
token, so it lies on a token boundary. -/
lemma safe_split {d : Char} (hd1 : ∀ e ∈ entityList, d ∉ e)
    (hd2 : ∀ t ∈ tagList, d ∉ t) :
    ∀ {Z : List Char}, Safe Z → ∀ X Y : List Char, Z = X ++ d :: Y →
      Safe X ∧ Safe Y := by
  intro Z hZ
  induction hZ with
  | nil =>
    intro X Y h
    exact absurd h.symm (by simp)
  | @chr c s hc1 hc2 hc3 hc4 hs IH =>
    intro X Y h
    cases X with
    | nil =>
      simp only [List.nil_append] at h
      obtain ⟨rfl, rfl⟩ : c = d ∧ s = Y := by
        refine ⟨?_, ?_⟩ <;> injection h
      exact ⟨Safe.nil, hs⟩
    | cons x X' =>
      simp only [List.cons_append] at h
      obtain ⟨rfl, h2⟩ : c = x ∧ s = X' ++ d :: Y := by
        refine ⟨?_, ?_⟩ <;> injection h
      obtain ⟨h3, h4⟩ := IH X' Y h2
      exact ⟨Safe.chr hc1 hc2 hc3 hc4 h3, h4⟩
  | @ent e s he hs IH =>
    intro X Y h
    rcases List.append_eq_append_iff.mp h with ⟨a', ha1, ha2⟩ | ⟨c', hc1', hc2'⟩
    · obtain ⟨hsa, hY⟩ := IH a' Y ha2
      exact ⟨ha1 ▸ safe_append (safe_ent1 he) hsa, hY⟩
    · cases c' with
      | nil =>
        simp only [List.append_nil] at hc1'
        simp only [List.nil_append] at hc2'
        obtain ⟨-, hY⟩ := IH [] Y (by simpa using hc2'.symm)
        exact ⟨hc1' ▸ safe_ent1 he, hY⟩
      | cons ch c'' =>
        obtain ⟨rfl, -⟩ : d = ch ∧ Y = c'' ++ s := by
          refine ⟨?_, ?_⟩ <;> injection hc2'
        exact absurd (hc1' ▸ List.mem_append_right X (List.mem_cons_self d c''))
          (hd1 e he)
  | @tag t s ht hs IH =>
    intro X Y h
    rcases List.append_eq_append_iff.mp h with ⟨a', ha1, ha2⟩ | ⟨c', hc1', hc2'⟩
    · obtain ⟨hsa, hY⟩ := IH a' Y ha2
      exact ⟨ha1 ▸ safe_append (safe_tag1 ht) hsa, hY⟩
    · cases c' with
      | nil =>
        simp only [List.append_nil] at hc1'
        simp only [List.nil_append] at hc2'
        obtain ⟨-, hY⟩ := IH [] Y (by simpa using hc2'.symm)
        exact ⟨hc1' ▸ safe_tag1 ht, hY⟩
      | cons ch c'' =>
        obtain ⟨rfl, -⟩ : d = ch ∧ Y = c'' ++ s := by
          refine ⟨?_, ?_⟩ <;> injection hc2'
        exact absurd (hc1' ▸ List.mem_append_right X (List.mem_cons_self d c''))
          (hd2 t ht)

lemma safe_boldStep (s t : List Char) (hs : Safe s) (h : boldStep s = some t) :
    Safe t := by
  unfold boldStep at h
  rw [Option.bind_eq_some] at h
  obtain ⟨i, hi, hmap⟩ := h
  rw [Option.map_eq_some'] at hmap
  obtain ⟨j, hj, rfl⟩ := hmap
  have hdec1 := (index2_decomp s i hi).1
  have hdec2 := (index2_decomp (s.drop (i + 2)) j hj).1
  have hd1 : ∀ e ∈ entityList, starCh ∉ e := by decide
  have hd2 : ∀ t ∈ tagList, starCh ∉ t := by decide
  obtain ⟨hA, hY⟩ :=
    safe_split hd1 hd2 hs (s.take i) (starCh :: s.drop (i + 2)) hdec1.symm
  obtain ⟨-, hD⟩ := safe_split hd1 hd2 hY [] (s.drop (i + 2)) rfl
  obtain ⟨hB, hY2⟩ := safe_split hd1 hd2 hD ((s.drop (i + 2)).take j)
    (starCh :: (s.drop (i + 2)).drop (j + 2)) hdec2.symm
  obtain ⟨-, hC⟩ := safe_split hd1 hd2 hY2 [] ((s.drop (i + 2)).drop (j + 2)) rfl
  have : Safe (s.take i ++ (lit "<strong>" ++ ((s.drop (i + 2)).take j
      ++ (lit "</strong>" ++ (s.drop (i + 2)).drop (j + 2))))) :=
    safe_append hA (safe_append (safe_tag1 (by decide))
      (safe_append hB (safe_append (safe_tag1 (by decide)) hC)))
  simpa [List.append_assoc] using this

lemma safe_tickStep (s t : List Char) (hs : Safe s) (h : tickStep s = some t) :
    Safe t := by
  unfold tickStep at h
  rw [Option.bind_eq_some] at h
  obtain ⟨i, hi, hmap⟩ := h
  rw [Option.map_eq_some'] at hmap
  obtain ⟨j, hj, rfl⟩ := hmap
  have hdec1 := index1_decomp s i hi
  have hdec2 := index1_decomp (s.drop (i + 1)) j hj
  have hd1 : ∀ e ∈ entityList, tick ∉ e := by decide
  have hd2 : ∀ t ∈ tagList, tick ∉ t := by decide
  obtain ⟨hA, hD⟩ :=
    safe_split hd1 hd2 hs (s.take i) (s.drop (i + 1)) hdec1.symm
  obtain ⟨hB, hC⟩ := safe_split hd1 hd2 hD ((s.drop (i + 1)).take j)
    ((s.drop (i + 1)).drop (j + 1)) hdec2.symm
  have : Safe (s.take i ++ (lit "<code>" ++ ((s.drop (i + 1)).take j
      ++ (lit "</code>" ++ (s.drop (i + 1)).drop (j + 1))))) :=
    safe_append hA (safe_append (safe_tag1 (by decide))
      (safe_append hB (safe_append (safe_tag1 (by decide)) hC)))
  simpa [List.append_assoc] using this

lemma safe_boldRun : ∀ (n : Nat) (s : List Char), Safe s → Safe (boldRun n s) := by
  intro n
  induction n with
  | zero => intro s hs; exact hs
  | succ k IH =>
    intro s hs
    cases h : boldStep s with
    | none => simpa [boldRun, h] using hs
    | some t =>
      simp only [boldRun, h]
      exact IH t (safe_boldStep s t hs h)

lemma safe_tickRun : ∀ (n : Nat) (s : List Char), Safe s → Safe (tickRun n s) := by
  intro n
  induction n with
  | zero => intro s hs; exact hs
  | succ k IH =>
    intro s hs
    cases h : tickStep s with
    | none => simpa [tickRun, h] using hs
    | some t =>
      simp only [tickRun, h]
      exact IH t (safe_tickStep s t hs h)

lemma safe_flushPara (st : RState) (h : Safe st.out) : Safe (flushPara st).out := by
  unfold flushPara
  by_cases hp : st.paragraph = []
  · simpa [hp] using h
  · simp only [hp, if_false]
    have : Safe (st.out ++ (lit "<p>"
        ++ (escapeHTML (List.intercalate [' '] st.paragraph) ++ lit "</p>\n"))) :=
      safe_append h (safe_append (safe_tag1 (by decide))
        (safe_append (safe_escape _) (safe_tag1 (by decide))))
    simpa [List.append_assoc] using this

lemma safe_closeList (st : RState) (h : Safe st.out) : Safe (closeList st).out := by
  unfold closeList
  by_cases hl : st.inList
  · simp only [hl, if_true]
    exact safe_append h (safe_tag1 (by decide))
  · simpa [hl] using h

lemma safe_afterCode (st : RState) (trimmed : List Char) (h : Safe st.out) :
    Safe (afterCodeBlock st trimmed).out := by
  unfold afterCodeBlock
  have ha : Safe (closeList (flushPara st)).out :=
    safe_closeList _ (safe_flushPara _ h)
  by_cases h0 : trimmed = []
  · simpa [h0] using ha
  · rw [if_neg h0]
    by_cases h1 : (lit "## ").isPrefixOf trimmed
    · simp only [h1, if_true]
      have : Safe ((closeList (flushPara st)).out ++ (lit "<h2>"
          ++ (escapeHTML (goTrimPref (lit "## ") trimmed) ++ lit "</h2>\n"))) :=
        safe_append ha (safe_append (safe_tag1 (by decide))
          (safe_append (safe_escape _) (safe_tag1 (by decide))))
      simpa [List.append_assoc] using this
    · simp only [h1, Bool.false_eq_true, if_false]
      by_cases h2 : (lit "# ").isPrefixOf trimmed
      · simp only [h2, if_true]
        have : Safe ((closeList (flushPara st)).out ++ (lit "<h2>"
            ++ (escapeHTML (goTrimPref (lit "# ") trimmed) ++ lit "</h2>\n"))) :=
          safe_append ha (safe_append (safe_tag1 (by decide))
            (safe_append (safe_escape _) (safe_tag1 (by decide))))
        simpa [List.append_assoc] using this
      · simp only [h2, Bool.false_eq_true, if_false]
        by_cases h3 : (lit "- ").isPrefixOf trimmed
        · simp only [h3, if_true]
          have hfp : Safe (flushPara st).out := safe_flushPara _ h
          have hb : Safe ((if !(flushPara st).inList then
              { flushPara st with out := (flushPara st).out ++ lit "<ul>\n", inList := true }
              else flushPara st).out) := by
            by_cases hl : (flushPara st).inList
            · simpa [hl] using hfp
            · simp only [hl, Bool.not_false, if_true]
              exact safe_append hfp (safe_tag1 (by decide))
          have : Safe ((if !(flushPara st).inList then
              { flushPara st with out := (flushPara st).out ++ lit "<ul>\n", inList := true }
              else flushPara st).out ++ (lit "<li>"
              ++ (escapeHTML (goTrimPref (lit "- ") trimmed) ++ lit "</li>\n"))) :=
            safe_append hb (safe_append (safe_tag1 (by decide))
              (safe_append (safe_escape _) (safe_tag1 (by decide))))
          simpa [List.append_assoc] using this
        · simpa [h3] using h

lemma safe_processLine (st : RState) (line : List Char) (h : Safe st.out) :
    Safe (processLine st line).out := by
  unfold processLine
  have hnl : Safe [nlCh] :=
    Safe.chr (by decide) (by decide) (by decide) (by decide) Safe.nil
  by_cases hc : (fourSp.isPrefixOf line && !st.inCodeBlock) = true
  · simp only [hc, if_true]
    have hpre : fourSp.isPrefixOf line = true := by
      have := hc
      rw [Bool.and_eq_true] at this
      exact this.1
    have ha : Safe (closeList (flushPara st)).out :=
      safe_closeList _ (safe_flushPara _ h)
    simp only [hpre, if_true]
    have : Safe ((closeList (flushPara st)).out ++ (lit "<pre><code>"
        ++ (escapeHTML (goTrimPref fourSp line) ++ [nlCh]))) :=
      safe_append ha (safe_append (safe_tag1 (by decide))
        (safe_append (safe_escape _) hnl))
    simpa [List.append_assoc] using this
  · rw [if_neg hc]
    by_cases hcb : st.inCodeBlock
    · simp only [hcb, if_true]
      by_cases hpre : fourSp.isPrefixOf line
      · simp only [hpre, if_true]
        have : Safe (st.out ++ (escapeHTML (goTrimPref fourSp line) ++ [nlCh])) :=
          safe_append h (safe_append (safe_escape _) hnl)
        simpa [List.append_assoc] using this
      · rw [if_neg hpre]
        exact safe_afterCode _ _ (by
          exact safe_append h (safe_tag1 (by decide)))
    · rw [if_neg hcb]
      exact safe_afterCode _ _ h

lemma safe_foldl : ∀ (ls : List (List Char)) (st : RState), Safe st.out →
    Safe ((ls.foldl processLine st).out) := by
  intro ls
  induction ls with
  | nil => intro st h; exact h
  | cons l rest IH =>
    intro st h
    exact IH (processLine st l) (safe_processLine st l h)

lemma safe_blockPass (content : List Char) : Safe (blockPass content) := by
  unfold blockPass
  have h0 : Safe (((splitNL content).foldl processLine ⟨[], false, false, []⟩).out) :=
    safe_foldl _ _ Safe.nil
  set st := (splitNL content).foldl processLine ⟨[], false, false, []⟩ with hst
  have h1 : Safe ((if st.inCodeBlock then
      { st with out := st.out ++ lit "</code></pre>\n" } else st).out) := by
    by_cases hc : st.inCodeBlock
    · simp only [hc, if_true]
      exact safe_append h0 (safe_tag1 (by decide))
    · simpa [hc] using h0
  set st1 := if st.inCodeBlock then
    { st with out := st.out ++ lit "</code></pre>\n" } else st with hst1
  have h2 : Safe ((if st1.inList then
      { st1 with out := st1.out ++ lit "</ul>\n" } else st1).out) := by
    by_cases hl : st1.inList
    · simp only [hl, if_true]
      exact safe_append h1 (safe_tag1 (by decide))
    · simpa [hl] using h1
  exact safe_flushPara _ h2

/-- C3: for every input the rendered fragment is `Safe` — it decomposes into
renderer-emitted structural tags, escape entities produced by escaping
literal text, and characters that are none of `<`, `>`, `&`, `"`.  Hence
every raw `<`, `>` or `"` in the output comes from a structural tag the
renderer itself emitted, and every `&` comes from such a tag or starts the
entity of an escaped literal character — all literal input text is
HTML-entity escaped before insertion. -/
theorem c3_output_escaped (content : List Char) : Safe (renderContent content) := by
  unfold renderContent processInlineFormatting boldPass tickPass
  exact safe_tickRun _ _ (safe_boldRun _ _ (safe_blockPass content))
